import Mathlib

/-!
Shallow embedding of `src/address-monitor.js` (ethereum address monitor):
the session start/stop registry operations and the polling cycle that the
`setInterval` callback in `startMonitoring` executes, together with the
verification of the specification's claims about them.

Modelling conventions:
* JS numbers that hold ether amounts are modelled as the exact rationals
  denoted by IEEE-754 binary64 values; `parseFloat` of a decimal string is
  modelled by rounding the exact rational to the nearest binary64
  (`roundToFloat64`, round-to-nearest, ties-to-even, normal range).
* Transaction values (`tx.value`, a BigNumber in wei) are natural numbers;
  `ethers.utils.formatEther` produces the exact decimal string `wei / 10^18`,
  so `parseFloat(formatEther(v))` is `roundToFloat64 (v / 10^18)`.
* The JS `Set` of processed transaction hashes is a `List String` to which a
  hash is added only when absent (exactly the `has`-then-`add` pattern of the
  source), so list length equals set size.
* Provider I/O is passed in as data: the result of `getBlockNumber` is an
  `Except Unit Nat` (an exception or a height) and `getBlockWithTransactions`
  is a function `Nat → BlockResult` (a block, a null block, or a thrown
  error).  A thrown error aborts the cycle body and is caught by the
  `catch` of the polling callback, which only logs it.
* Real-time aspects (timestamps, the polling cadence itself) and the text of
  log/notification messages are outside the embedding.
-/

/-! ## Binary64 rounding (model of JS `parseFloat` on exact decimal strings) -/

/-- Round a rational to the nearest integer, ties to even (IEEE-754 rule). -/
def roundTiesToEven (x : ℚ) : ℤ :=
  let f := ⌊x⌋
  let r := x - f
  if r < 1/2 then f else if 1/2 < r then f + 1 else if f % 2 = 0 then f else f + 1

/-- The rational `2 ^ e` for an integer `e`, written with `Nat` powers so that
concrete instances evaluate. -/
def pow2z (e : ℤ) : ℚ :=
  if 0 ≤ e then ((2 ^ e.toNat : ℕ) : ℚ) else 1 / ((2 ^ (-e).toNat : ℕ) : ℚ)

/-- Round a nonnegative rational to the nearest IEEE-754 binary64 value
(53-bit significand), viewed as an exact rational.  Valid on the normal,
non-overflowing range, which covers every quantity the monitor handles.
Nonpositive inputs round to `0` (the monitor only ever converts nonnegative
wei amounts). -/
def roundToFloat64 (q : ℚ) : ℚ :=
  if q ≤ 0 then 0
  else
    let e : ℤ := Int.log 2 q
    (roundTiesToEven (q * pow2z (52 - e)) : ℚ) * pow2z (e - 52)

/-- Model of `parseFloat(ethers.utils.formatEther(tx.value))`
(src/address-monitor.js line 121): `formatEther` prints the exact decimal
expansion of `wei / 10^18`, and `parseFloat` rounds it to binary64. -/
def ethValueOf (wei : Nat) : ℚ := roundToFloat64 ((wei : ℚ) / 10 ^ 18)

/-! ## Address syntax (model of `ethers.utils.isAddress` / `toLowerCase`) -/

/-- Hexadecimal digit test. -/
def isHexDigit (c : Char) : Bool :=
  (('0' ≤ c) && (c ≤ '9')) || (('a' ≤ c) && (c ≤ 'f')) || (('A' ≤ c) && (c ≤ 'F'))

/-- Model of `ethers.utils.isAddress`: `0x` followed by 40 hex digits.
The mixed-case checksum validation of the real library is not modelled; the
claims only exercise all-lower-case or plainly malformed strings, on which
the two definitions agree. -/
def isAddress (s : String) : Bool :=
  match s.data with
  | '0' :: 'x' :: rest => rest.length == 40 && rest.all isHexDigit
  | _ => false

/-- ASCII lower-casing of one character (model of JS `toLowerCase` on the
ASCII range, which covers hex addresses). -/
def lowerChar (c : Char) : Char :=
  if 'A' ≤ c ∧ c ≤ 'Z' then Char.ofNat (c.toNat + 32) else c

/-- ASCII lower-casing of a string. -/
def toLowerStr (s : String) : String := ⟨s.data.map lowerChar⟩

/-! ## Data model -/

/-- The per-session options object built at the top of `startMonitoring`
(lines 61-67).  `network` and `pollingInterval` only configure the I/O
endpoint and the timer cadence and play no role in the embedded logic. -/
structure MonitorOptions where
  minValue : ℚ
  saveTransactions : Bool
  includeOutgoing : Bool
deriving DecidableEq, Repr

/-- An on-chain transaction as the provider reports it.  `fromAddr`/`toAddr`
model the JS fields `from`/`to`; `to` is `null` for contract creation, which
`Option.none` models.  `value` is the amount in wei. -/
structure Tx where
  hash : String
  fromAddr : Option String
  toAddr : Option String
  value : Nat
deriving DecidableEq, Repr

/-- Transaction direction as classified by lines 124-128. -/
inductive TxType where
  | incoming
  | outgoing
  | internalTx
deriving DecidableEq, Repr

/-- The JSON record written to the log stream for a matched transaction
(lines 133-141); the same record stands for the notification attempt made on
lines 144-148.  The wall-clock `timestamp` field is not modelled. -/
structure Record where
  hash : String
  fromAddr : Option String
  toAddr : Option String
  value : ℚ
  blockNumber : Nat
  type : TxType
deriving DecidableEq, Repr

/-- The mutable state owned by one session's polling callback:
`lastProcessedBlock` (line 87) and the `processedTxs` dedup set (line 86). -/
structure SessionState where
  lastProcessedBlock : Nat
  processedTxs : List String
deriving DecidableEq, Repr

/-- Result of `provider.getBlockWithTransactions(i)` for one height:
a block with its transaction list, a null/absent block (skipped by line 110),
or a thrown provider error (aborts the cycle body, caught on line 154). -/
inductive BlockResult where
  | block (txs : List Tx)
  | missing
  | failure
deriving Repr

/-- What one execution of the polling callback produced: the new session
state, the matched records in emission order, whether the `catch` on line 154
caught an unhandled error, and whether line 153 cleared the dedup set. -/
structure CycleResult where
  state : SessionState
  events : List Record
  errored : Bool
  cleared : Bool
deriving DecidableEq, Repr

/-! ## Transaction classifier (lines 112-148) -/

/-- Line 116: `tx.to && watchAddresses.has(tx.to.toLowerCase())`. -/
def isIncomingTx (watch : List String) (tx : Tx) : Bool :=
  match tx.toAddr with
  | some a => decide (toLowerStr a ∈ watch)
  | none => false

/-- Line 117: `tx.from && watchAddresses.has(tx.from.toLowerCase())`. -/
def isOutgoingTx (watch : List String) (tx : Tx) : Bool :=
  match tx.fromAddr with
  | some a => decide (toLowerStr a ∈ watch)
  | none => false

/-- Lines 124-128: the direction ternary. -/
def txTypeOf (isIncoming isOutgoing : Bool) : TxType :=
  if isIncoming && isOutgoing then .internalTx
  else if isIncoming then .incoming
  else .outgoing

/-- One iteration of the inner `for (const tx of block.transactions)` loop
(lines 112-148): dedup check and mark, direction test, value filter, then
fanout.  Returns the updated dedup set and the emitted record, if any. -/
def processTx (o : MonitorOptions) (watch : List String) (blockNumber : Nat)
    (seen : List String) (tx : Tx) : List String × Option Record :=
  if tx.hash ∈ seen then (seen, none)
  else
    let seen' := tx.hash :: seen
    let isIncoming := isIncomingTx watch tx
    let isOutgoing := isOutgoingTx watch tx
    if !isIncoming && !(isOutgoing && o.includeOutgoing) then (seen', none)
    else
      let ethValue := ethValueOf tx.value
      if ethValue < o.minValue then (seen', none)
      else
        (seen', some { hash := tx.hash, fromAddr := tx.fromAddr, toAddr := tx.toAddr,
                       value := ethValue, blockNumber := blockNumber,
                       type := txTypeOf isIncoming isOutgoing })

/-- The inner loop over one block's transaction list, in list order. -/
def processTxs (o : MonitorOptions) (watch : List String) (blockNumber : Nat) :
    List Tx → List String → List String × List Record
  | [], seen => (seen, [])
  | tx :: rest, seen =>
    let step := processTx o watch blockNumber seen tx
    let next := processTxs o watch blockNumber rest step.1
    (next.1, step.2.toList ++ next.2)

/-- The `for (let i = lastProcessedBlock + 1; i <= currentBlock; i++)` loop
(lines 108-150) over an explicit ascending list of heights.  A `missing`
block is skipped (line 110); a `failure` throws, aborting the remaining
heights and reporting `true` in the third component. -/
def runBlocks (o : MonitorOptions) (watch : List String) (blocks : Nat → BlockResult) :
    List Nat → List String → List String × List Record × Bool
  | [], seen => (seen, [], false)
  | i :: rest, seen =>
    match blocks i with
    | .failure => (seen, [], true)
    | .missing => runBlocks o watch blocks rest seen
    | .block txs =>
      let step := processTxs o watch i txs seen
      let next := runBlocks o watch blocks rest step.1
      (next.1, step.2 ++ next.2.1, next.2.2)

/-- The ascending height range `(last, H]` the cycle scans. -/
def cycleRange (last H : Nat) : List Nat := List.range' (last + 1) (H - last)

/-- The transactions the provider reports at one height (empty for a missing
or failing fetch). -/
def txsAt (blocks : Nat → BlockResult) (i : Nat) : List Tx :=
  match blocks i with
  | .block txs => txs
  | .missing => []
  | .failure => []

/-- One execution of the polling callback (lines 103-157).  `head` is the
result of `provider.getBlockNumber()`; a thrown error there is caught by the
same `catch` and nothing changes.  On an unhandled error partway through the
range the dedup additions made so far persist but `lastProcessedBlock` is not
assigned (line 152 is skipped) and neither is the capacity check on
line 153. -/
def runCycle (o : MonitorOptions) (watch : List String) (head : Except Unit Nat)
    (blocks : Nat → BlockResult) (st : SessionState) : CycleResult :=
  match head with
  | .error _ => ⟨st, [], true, false⟩
  | .ok currentBlock =>
    if currentBlock ≤ st.lastProcessedBlock then ⟨st, [], false, false⟩
    else
      let res := runBlocks o watch blocks (cycleRange st.lastProcessedBlock currentBlock)
        st.processedTxs
      if res.2.2 then ⟨⟨st.lastProcessedBlock, res.1⟩, res.2.1, true, false⟩
      else
        let doClear := decide (res.1.length > 1000)
        ⟨⟨currentBlock, if doClear then [] else res.1⟩, res.2.1, false, doClear⟩

/-- Provider data consumed by one scheduled tick. -/
structure CycleInput where
  head : Except Unit Nat
  blocks : Nat → BlockResult

/-- A sequence of polling cycles of one session, in tick order.  Returns the
final state, all emitted records in order, and whether any cycle cleared the
dedup window. -/
def runCycles (o : MonitorOptions) (watch : List String) :
    List CycleInput → SessionState → SessionState × List Record × Bool
  | [], st => (st, [], false)
  | c :: rest, st =>
    let r := runCycle o watch c.head c.blocks st
    let next := runCycles o watch rest r.state
    (next.1, r.events ++ next.2.1, r.cleared || next.2.2)

/-- Lines 132-142: the audit log receives one line per emitted record exactly
when the session was created with `saveTransactions` (the log stream exists
iff that option was set, lines 90-95). -/
def auditRecords (o : MonitorOptions) (evs : List Record) : List Record :=
  if o.saveTransactions then evs else []

/-! ## Session registry: start (lines 60-170) and stop (lines 172-187) -/

/-- Errors `startMonitoring` can fail with.  `missingApiKey` and
`noAddressesProvided` are the two explicit `throw`s on lines 69-70; a
rejection of the initial `provider.getBlockNumber()` on line 87 propagates
out of `startMonitoring` and is modelled as `providerUnavailable`. -/
inductive StartError where
  | missingApiKey
  | noAddressesProvided
  | providerUnavailable
deriving DecidableEq, Repr

/-- The observable outcome of a successful `startMonitoring`: the normalized
watch list and the initial height.  (A fresh random `sessionId` is also
returned by the source; its generation is I/O outside the embedding, and
returning `ok` here models that a session id is returned.) -/
structure StartResult where
  watchAddresses : List String
  lastProcessedBlock : Nat
deriving DecidableEq, Repr

/-- Lines 73-83: map each address to its lower-cased form when syntactically
valid, drop (and only log) the invalid ones.  The JS `Set` only affects
duplicate entries, not membership, so a list models it. -/
def validWatchList (addresses : List String) : List String :=
  addresses.filterMap (fun a => if isAddress a then some (toLowerStr a) else none)

/-- The validation and setup path of `startMonitoring` (lines 60-88): API-key
check, non-empty-list check, watch-list normalization, initial height fetch.
Note the source has no check that the normalized watch list is non-empty. -/
def startMonitoring (hasApiKey : Bool) (addresses : List String)
    (head : Except Unit Nat) : Except StartError StartResult :=
  if !hasApiKey then .error .missingApiKey
  else if addresses.isEmpty then .error .noAddressesProvided
  else
    let watch := validWatchList addresses
    match head with
    | .error _ => .error .providerUnavailable
    | .ok h => .ok ⟨watch, h⟩

/-- Error `stopMonitoring` throws on line 174. -/
inductive StopError where
  | sessionNotFound (sessionId : String)
deriving DecidableEq, Repr

/-- One entry of the `activeSessions` table (lines 159-167); only the fields
the embedded operations read are kept. -/
structure SessionEntry where
  addresses : List String
  telegramChatId : String
deriving DecidableEq, Repr

/-- The `activeSessions` module-level object, keyed by session id. -/
abbrev Registry := List (String × SessionEntry)

/-- Object property lookup `activeSessions[sessionId]`. -/
def lookupSession (sessionId : String) : Registry → Option SessionEntry
  | [] => none
  | (k, v) :: rest => if k = sessionId then some v else lookupSession sessionId rest

/-- `delete activeSessions[sessionId]` (keys are unique UUIDs). -/
def removeSession (sessionId : String) (reg : Registry) : Registry :=
  reg.filter (fun p => !(p.1 == sessionId))

/-- Model of `sendTelegramNotification` (lines 20-44): a missing
configuration returns `false`; otherwise the transport outcome is returned.
The whole body is wrapped in `try/catch`, so the function is total and never
raises — which is exactly what a total Lean function into `Bool` embeds. -/
def sendTelegramNotification (configOk transportOk : Bool) : Bool :=
  if !configOk then false else transportOk

/-- `stopMonitoring` (lines 172-187): look the session up, throw
`SessionNotFound` when absent, otherwise cancel the timer, close the log
stream, send the final (best-effort) notification, delete the entry and
return `true`.  Timer cancellation and stream closing are resource effects
carried by the registry removal; the notification result is discarded. -/
def stopMonitoring (reg : Registry) (sessionId : String)
    (configOk transportOk : Bool) : Registry × Except StopError Bool :=
  match lookupSession sessionId reg with
  | none => (reg, .error (.sessionNotFound sessionId))
  | some _entry =>
    let _notified := sendTelegramNotification configOk transportOk
    (removeSession sessionId reg, .ok true)

/-- All transaction hashes a cycle over heights `hs` is presented with, in
presentation order (ascending heights, in-block order). -/
def presentedHashes (blocks : Nat → BlockResult) (hs : List Nat) : List String :=
  hs.flatMap (fun i => (txsAt blocks i).map Tx.hash)

/-! ## Concrete inputs for the cycle-level witnesses -/

/-- Options used by the witnesses: `minValue 0`, persistence on, outgoing
off. -/
def exOpts : MonitorOptions := ⟨0, true, false⟩

/-- A transaction incoming to the watched address `0xaa`. -/
def exTx : Tx := ⟨"h1", some "0xbb", some "0xaa", 0⟩

/-- Provider view for the first witness cycle: height 1 carries `exTx`. -/
def exBlocksA : Nat → BlockResult := fun i => if i = 1 then .block [exTx] else .missing

/-- Provider view for the second witness cycle: height 2 re-reports the same
transaction. -/
def exBlocksB : Nat → BlockResult := fun i => if i = 2 then .block [exTx] else .missing

/-- The record the first witness cycle emits for `exTx`. -/
def exRec : Record := ⟨"h1", some "0xbb", some "0xaa", 0, 1, TxType.incoming⟩

/-! ## Facts about the binary64 rounding model -/

lemma pow2z_eq_zpow (e : ℤ) : pow2z e = (2 : ℚ) ^ e := by
  unfold pow2z
  split
  · rename_i h
    push_cast
    rw [← zpow_natCast, Int.toNat_of_nonneg h]
  · rename_i h
    push_neg at h
    have h2 : ((2 ^ (-e).toNat : ℕ) : ℚ) = (2 : ℚ) ^ (-e) := by
      push_cast
      rw [← zpow_natCast, Int.toNat_of_nonneg (by omega : (0 : ℤ) ≤ -e)]
    rw [h2, one_div, ← zpow_neg, neg_neg]

lemma pow2z_pos (e : ℤ) : 0 < pow2z e := by
  rw [pow2z_eq_zpow]; positivity

lemma int_log2_eq {q : ℚ} {e : ℤ} (hlo : pow2z e ≤ q) (hhi : q < pow2z (e + 1)) :
    Int.log 2 q = e := by
  rw [pow2z_eq_zpow] at hlo hhi
  have hq : 0 < q := lt_of_lt_of_le (by positivity) hlo
  have h1 : (2 : ℚ) ^ (Int.log 2 q) ≤ q := Int.zpow_log_le_self (by norm_num) hq
  have h2 : q < (2 : ℚ) ^ (Int.log 2 q + 1) := Int.lt_zpow_succ_log_self (by norm_num) q
  by_contra hne
  rcases lt_or_gt_of_ne hne with h | h
  · have : (2 : ℚ) ^ (Int.log 2 q + 1) ≤ (2 : ℚ) ^ e :=
      zpow_le_zpow_right₀ (by norm_num) (by omega)
    linarith
  · have : (2 : ℚ) ^ (e + 1) ≤ (2 : ℚ) ^ (Int.log 2 q) :=
      zpow_le_zpow_right₀ (by norm_num) (by omega)
    linarith

lemma rte_eval_lt {x : ℚ} {f : ℤ} (hf : ⌊x⌋ = f) (hr : x - f < 1/2) :
    roundTiesToEven x = f := by
  unfold roundTiesToEven
  rw [hf]
  simp only [if_pos hr]

lemma rte_eval_gt {x : ℚ} {f : ℤ} (hf : ⌊x⌋ = f) (hr : 1/2 < x - f) :
    roundTiesToEven x = f + 1 := by
  unfold roundTiesToEven
  rw [hf]
  rw [if_neg (by linarith), if_pos hr]

lemma roundToFloat64_eval {q : ℚ} {e : ℤ} (hlo : pow2z e ≤ q) (hhi : q < pow2z (e + 1)) :
    roundToFloat64 q = (roundTiesToEven (q * pow2z (52 - e)) : ℚ) * pow2z (e - 52) := by
  have hq : 0 < q := lt_of_lt_of_le (pow2z_pos e) hlo
  unfold roundToFloat64
  rw [if_neg (by linarith), int_log2_eq hlo hhi]

lemma rte_ge_floor (x : ℚ) : ⌊x⌋ ≤ roundTiesToEven x := by
  simp only [roundTiesToEven]
  split_ifs <;> omega

lemma rte_le_floor_add_one (x : ℚ) : roundTiesToEven x ≤ ⌊x⌋ + 1 := by
  simp only [roundTiesToEven]
  split_ifs <;> omega

lemma le_rte_of_int_le {x : ℚ} {n : ℤ} (h : (n : ℚ) ≤ x) : n ≤ roundTiesToEven x := by
  have h1 := rte_ge_floor x
  have h2 : n ≤ ⌊x⌋ := Int.le_floor.mpr h
  omega

lemma rte_le_of_lt_int {x : ℚ} {n : ℤ} (h : x < (n : ℚ)) : roundTiesToEven x ≤ n := by
  have h1 := rte_le_floor_add_one x
  have h2 : ⌊x⌋ < n := Int.floor_lt.mpr h
  omega

lemma rte_mono {x y : ℚ} (h : x ≤ y) : roundTiesToEven x ≤ roundTiesToEven y := by
  have hf : ⌊x⌋ ≤ ⌊y⌋ := Int.floor_le_floor h
  rcases lt_or_eq_of_le hf with hlt | heq
  · calc roundTiesToEven x ≤ ⌊x⌋ + 1 := rte_le_floor_add_one x
      _ ≤ ⌊y⌋ := by omega
      _ ≤ roundTiesToEven y := rte_ge_floor y
  · simp only [roundTiesToEven, ← heq]
    split_ifs <;> first | omega | (exfalso; linarith)

lemma roundToFloat64_nonneg (q : ℚ) : 0 ≤ roundToFloat64 q := by
  unfold roundToFloat64
  split_ifs with h
  · exact le_refl 0
  · push_neg at h
    apply mul_nonneg
    · have hge : (0 : ℤ) ≤ roundTiesToEven (q * pow2z (52 - Int.log 2 q)) :=
        le_rte_of_int_le (by
          push_cast
          exact le_of_lt (mul_pos h (pow2z_pos _)))
      exact_mod_cast hge
    · exact le_of_lt (pow2z_pos _)

lemma roundToFloat64_mono {x y : ℚ} (hx : 0 < x) (hxy : x ≤ y) :
    roundToFloat64 x ≤ roundToFloat64 y := by
  have hy : 0 < y := lt_of_lt_of_le hx hxy
  have hee : Int.log 2 x ≤ Int.log 2 y := Int.log_mono_right hx hxy
  unfold roundToFloat64
  rw [if_neg (not_le.mpr hx), if_neg (not_le.mpr hy)]
  rcases eq_or_lt_of_le hee with heq | hlt
  · rw [← heq]
    apply mul_le_mul_of_nonneg_right _ (le_of_lt (pow2z_pos _))
    have := rte_mono (mul_le_mul_of_nonneg_right hxy (le_of_lt (pow2z_pos (52 - Int.log 2 x))))
    exact_mod_cast this
  · set ex := Int.log 2 x with hex
    set ey := Int.log 2 y with hey
    simp only [pow2z_eq_zpow]
    have h2 : (0 : ℚ) < 2 := by norm_num
    have hupper : x < (2 : ℚ) ^ (ex + 1) := Int.lt_zpow_succ_log_self (by norm_num) x
    have hlower : (2 : ℚ) ^ ey ≤ y := Int.zpow_log_le_self (by norm_num) hy
    have hxe : (roundTiesToEven (x * (2 : ℚ) ^ (52 - ex)) : ℚ) * (2 : ℚ) ^ (ex - 52) ≤
        (2 : ℚ) ^ (ex + 1) := by
      have hs : x * (2 : ℚ) ^ (52 - ex) < ((2 ^ 53 : ℤ) : ℚ) := by
        have := mul_lt_mul_of_pos_right hupper (zpow_pos h2 (52 - ex))
        calc x * (2 : ℚ) ^ (52 - ex) < (2 : ℚ) ^ (ex + 1) * (2 : ℚ) ^ (52 - ex) := this
          _ = (2 : ℚ) ^ (ex + 1 + (52 - ex)) := by rw [← zpow_add₀ (by norm_num : (2:ℚ) ≠ 0)]
          _ = (2 : ℚ) ^ (53 : ℤ) := by rw [show ex + 1 + (52 - ex) = (53 : ℤ) by ring]
          _ = ((2 ^ 53 : ℤ) : ℚ) := by norm_num
      have hrte : roundTiesToEven (x * (2 : ℚ) ^ (52 - ex)) ≤ (2 ^ 53 : ℤ) :=
        rte_le_of_lt_int hs
      calc (roundTiesToEven (x * (2 : ℚ) ^ (52 - ex)) : ℚ) * (2 : ℚ) ^ (ex - 52)
          ≤ ((2 ^ 53 : ℤ) : ℚ) * (2 : ℚ) ^ (ex - 52) := by
            apply mul_le_mul_of_nonneg_right _ (le_of_lt (zpow_pos h2 _))
            exact_mod_cast hrte
        _ = (2 : ℚ) ^ (53 : ℤ) * (2 : ℚ) ^ (ex - 52) := by norm_num
        _ = (2 : ℚ) ^ (53 + (ex - 52)) := by rw [← zpow_add₀ (by norm_num : (2:ℚ) ≠ 0)]
        _ = (2 : ℚ) ^ (ex + 1) := by ring_nf
    have hye : (2 : ℚ) ^ ey ≤
        (roundTiesToEven (y * (2 : ℚ) ^ (52 - ey)) : ℚ) * (2 : ℚ) ^ (ey - 52) := by
      have hs : ((2 ^ 52 : ℤ) : ℚ) ≤ y * (2 : ℚ) ^ (52 - ey) := by
        have := mul_le_mul_of_nonneg_right hlower (le_of_lt (zpow_pos h2 (52 - ey)))
        calc ((2 ^ 52 : ℤ) : ℚ) = (2 : ℚ) ^ (52 : ℤ) := by norm_num
          _ = (2 : ℚ) ^ (ey + (52 - ey)) := by ring_nf
          _ = (2 : ℚ) ^ ey * (2 : ℚ) ^ (52 - ey) := zpow_add₀ (by norm_num : (2:ℚ) ≠ 0) _ _
          _ ≤ y * (2 : ℚ) ^ (52 - ey) := this
      have hrte : (2 ^ 52 : ℤ) ≤ roundTiesToEven (y * (2 : ℚ) ^ (52 - ey)) :=
        le_rte_of_int_le (by exact_mod_cast hs)
      calc (2 : ℚ) ^ ey = (2 : ℚ) ^ ((52 : ℤ) + (ey - 52)) := by ring_nf
        _ = (2 : ℚ) ^ (52 : ℤ) * (2 : ℚ) ^ (ey - 52) := zpow_add₀ (by norm_num : (2:ℚ) ≠ 0) _ _
        _ = ((2 ^ 52 : ℤ) : ℚ) * (2 : ℚ) ^ (ey - 52) := by norm_num
        _ ≤ (roundTiesToEven (y * (2 : ℚ) ^ (52 - ey)) : ℚ) * (2 : ℚ) ^ (ey - 52) := by
            apply mul_le_mul_of_nonneg_right _ (le_of_lt (zpow_pos h2 _))
            exact_mod_cast hrte
    have hmid : (2 : ℚ) ^ (ex + 1) ≤ (2 : ℚ) ^ ey :=
      zpow_le_zpow_right₀ (by norm_num) (by omega)
    linarith

lemma roundToFloat64_le_of_le {m v : ℚ} (hrep : roundToFloat64 m = m) (hmv : m ≤ v) :
    m ≤ roundToFloat64 v := by
  rcases le_or_lt m 0 with hm | hm
  · exact le_trans hm (roundToFloat64_nonneg v)
  · calc m = roundToFloat64 m := hrep.symm
      _ ≤ roundToFloat64 v := roundToFloat64_mono hm hmv

lemma roundToFloat64_zero : roundToFloat64 0 = 0 := by
  unfold roundToFloat64
  norm_num

lemma ethValueOf_zero : ethValueOf 0 = 0 := by
  unfold ethValueOf roundToFloat64
  norm_num

lemma roundToFloat64_one : roundToFloat64 1 = 1 := by
  rw [roundToFloat64_eval (e := 0)]
  · rw [rte_eval_lt (f := 4503599627370496)]
    · simp only [pow2z_eq_zpow]
      norm_num
    · rw [Int.floor_eq_iff]
      simp only [pow2z_eq_zpow]
      constructor
      · norm_num
      · norm_num
    · simp only [pow2z_eq_zpow]
      norm_num
  · simp only [pow2z_eq_zpow]
    norm_num
  · simp only [pow2z_eq_zpow]
    norm_num

lemma ethValueOf_almost_one : ethValueOf (10 ^ 18 - 1) = 1 := by
  unfold ethValueOf
  have h : ((10 ^ 18 - 1 : ℕ) : ℚ) / 10 ^ 18 = 999999999999999999 / 1000000000000000000 := by
    norm_num
  rw [h]
  rw [roundToFloat64_eval (e := -1)]
  · rw [rte_eval_gt (f := 9007199254740991)]
    · simp only [pow2z_eq_zpow]
      norm_num
    · rw [Int.floor_eq_iff]
      simp only [pow2z_eq_zpow]
      constructor
      · norm_num
      · norm_num
    · simp only [pow2z_eq_zpow]
      norm_num
  · simp only [pow2z_eq_zpow]
    norm_num
  · simp only [pow2z_eq_zpow]
    norm_num

/-! ## Structural facts about one classifier step -/

lemma processTx_fst (o : MonitorOptions) (w : List String) (i : Nat) (seen : List String)
    (tx : Tx) :
    (processTx o w i seen tx).1 = if tx.hash ∈ seen then seen else tx.hash :: seen := by
  simp only [processTx]
  split_ifs <;> rfl

lemma processTx_snd (o : MonitorOptions) (w : List String) (i : Nat) (seen : List String)
    (tx : Tx) :
    (processTx o w i seen tx).2 =
      if tx.hash ∈ seen then none
      else if !isIncomingTx w tx && !(isOutgoingTx w tx && o.includeOutgoing) then none
      else if ethValueOf tx.value < o.minValue then none
      else some { hash := tx.hash, fromAddr := tx.fromAddr, toAddr := tx.toAddr,
                  value := ethValueOf tx.value, blockNumber := i,
                  type := txTypeOf (isIncomingTx w tx) (isOutgoingTx w tx) } := by
  simp only [processTx]
  split_ifs <;> rfl

lemma processTx_subset (o : MonitorOptions) (w : List String) (i : Nat) (seen : List String)
    (tx : Tx) : seen ⊆ (processTx o w i seen tx).1 := by
  rw [processTx_fst]
  split_ifs
  · exact fun a ha => ha
  · exact fun a ha => List.mem_cons_of_mem _ ha

lemma processTx_mem_fst (o : MonitorOptions) (w : List String) (i : Nat) (seen : List String)
    (tx : Tx) (a : String) :
    a ∈ (processTx o w i seen tx).1 ↔ a ∈ seen ∨ a = tx.hash := by
  rw [processTx_fst]
  split_ifs with h
  · constructor
    · exact Or.inl
    · rintro (ha | rfl)
      · exact ha
      · exact h
  · simp [List.mem_cons, or_comm]

lemma processTx_emit_hash {o : MonitorOptions} {w : List String} {i : Nat}
    {seen : List String} {tx : Tx} {r : Record}
    (h : (processTx o w i seen tx).2 = some r) :
    r.hash = tx.hash ∧ r.blockNumber = i ∧ tx.hash ∉ seen := by
  rw [processTx_snd] at h
  by_cases h1 : tx.hash ∈ seen
  · rw [if_pos h1] at h
    simp at h
  · rw [if_neg h1] at h
    by_cases h2 : (!isIncomingTx w tx && !(isOutgoingTx w tx && o.includeOutgoing)) = true
    · rw [if_pos h2] at h
      simp at h
    · rw [if_neg h2] at h
      by_cases h3 : ethValueOf tx.value < o.minValue
      · rw [if_pos h3] at h
        simp at h
      · rw [if_neg h3] at h
        have hX := Option.some.inj h
        rw [← hX]
        exact ⟨rfl, rfl, h1⟩

lemma processTx_emit_mem {o : MonitorOptions} {w : List String} {i : Nat}
    {seen : List String} {tx : Tx} {r : Record}
    (h : (processTx o w i seen tx).2 = some r) :
    r.hash ∈ (processTx o w i seen tx).1 := by
  obtain ⟨hh, _, hs⟩ := processTx_emit_hash h
  rw [processTx_fst, if_neg hs, hh]
  exact List.mem_cons_self _ _

lemma processTx_emits (o : MonitorOptions) (w : List String) (i : Nat) (seen : List String)
    (tx : Tx) (h1 : tx.hash ∉ seen)
    (h2 : (!isIncomingTx w tx && !(isOutgoingTx w tx && o.includeOutgoing)) = false)
    (h3 : ¬ ethValueOf tx.value < o.minValue) :
    processTx o w i seen tx =
      (tx.hash :: seen,
       some { hash := tx.hash, fromAddr := tx.fromAddr, toAddr := tx.toAddr,
              value := ethValueOf tx.value, blockNumber := i,
              type := txTypeOf (isIncomingTx w tx) (isOutgoingTx w tx) }) := by
  have hfst := processTx_fst o w i seen tx
  have hsnd := processTx_snd o w i seen tx
  rw [if_neg h1] at hfst
  rw [if_neg h1, h2, if_neg h3] at hsnd
  simp only [Bool.false_eq_true, if_false] at hsnd
  exact Prod.ext hfst hsnd

/-! ## Structural facts about the inner transaction loop -/

lemma processTxs_nil (o : MonitorOptions) (w : List String) (i : Nat) (seen : List String) :
    processTxs o w i [] seen = (seen, []) := rfl

lemma processTxs_cons (o : MonitorOptions) (w : List String) (i : Nat) (tx : Tx)
    (rest : List Tx) (seen : List String) :
    processTxs o w i (tx :: rest) seen =
      ((processTxs o w i rest (processTx o w i seen tx).1).1,
       (processTx o w i seen tx).2.toList ++
         (processTxs o w i rest (processTx o w i seen tx).1).2) := rfl

lemma processTxs_subset (o : MonitorOptions) (w : List String) (i : Nat) (txs : List Tx) :
    ∀ seen, seen ⊆ (processTxs o w i txs seen).1 := by
  induction txs with
  | nil => intro seen a ha; simpa [processTxs_nil] using ha
  | cons tx rest ih =>
    intro seen a ha
    rw [processTxs_cons]
    exact ih _ (processTx_subset o w i seen tx ha)

lemma processTxs_mem_fst (o : MonitorOptions) (w : List String) (i : Nat) (txs : List Tx) :
    ∀ seen a, a ∈ (processTxs o w i txs seen).1 ↔ a ∈ seen ∨ a ∈ txs.map Tx.hash := by
  induction txs with
  | nil => intro seen a; simp [processTxs_nil]
  | cons tx rest ih =>
    intro seen a
    rw [processTxs_cons]
    simp only [ih, processTx_mem_fst, List.map_cons, List.mem_cons]
    tauto

lemma processTxs_emit_not_mem (o : MonitorOptions) (w : List String) (i : Nat)
    (txs : List Tx) :
    ∀ seen r, r ∈ (processTxs o w i txs seen).2 → r.hash ∉ seen := by
  induction txs with
  | nil => intro seen r hr; simp [processTxs_nil] at hr
  | cons tx rest ih =>
    intro seen r hr
    rw [processTxs_cons] at hr
    rcases List.mem_append.mp hr with h | h
    · have h' : (processTx o w i seen tx).2 = some r := Option.mem_toList.mp h
      obtain ⟨hh, _, hs⟩ := processTx_emit_hash h'
      rw [hh]
      exact hs
    · intro hm
      exact ih _ r h (processTx_subset o w i seen tx hm)

lemma processTxs_emit_mem_fst (o : MonitorOptions) (w : List String) (i : Nat)
    (txs : List Tx) :
    ∀ seen r, r ∈ (processTxs o w i txs seen).2 → r.hash ∈ (processTxs o w i txs seen).1 := by
  induction txs with
  | nil => intro seen r hr; simp [processTxs_nil] at hr
  | cons tx rest ih =>
    intro seen r hr
    rw [processTxs_cons] at hr ⊢
    rcases List.mem_append.mp hr with h | h
    · rcases Option.mem_toList.mp h with h'
      exact processTxs_subset o w i rest _ (processTx_emit_mem h')
    · exact ih _ r h

lemma processTxs_emit_block (o : MonitorOptions) (w : List String) (i : Nat)
    (txs : List Tx) :
    ∀ seen r, r ∈ (processTxs o w i txs seen).2 → r.blockNumber = i := by
  induction txs with
  | nil => intro seen r hr; simp [processTxs_nil] at hr
  | cons tx rest ih =>
    intro seen r hr
    rw [processTxs_cons] at hr
    rcases List.mem_append.mp hr with h | h
    · exact (processTx_emit_hash (Option.mem_toList.mp h)).2.1
    · exact ih _ r h

lemma processTxs_hashes_nodup (o : MonitorOptions) (w : List String) (i : Nat)
    (txs : List Tx) :
    ∀ seen, ((processTxs o w i txs seen).2.map Record.hash).Nodup := by
  induction txs with
  | nil => intro seen; simp [processTxs_nil]
  | cons tx rest ih =>
    intro seen
    rw [processTxs_cons]
    rcases hstep : (processTx o w i seen tx).2 with _ | r
    · simpa using ih (processTx o w i seen tx).1
    · simp only [Option.toList_some, List.singleton_append, List.map_cons, List.nodup_cons]
      refine ⟨?_, ih (processTx o w i seen tx).1⟩
      intro hmem
      obtain ⟨r', hr', hr'h⟩ := List.mem_map.mp hmem
      have hnot := processTxs_emit_not_mem o w i rest (processTx o w i seen tx).1 r' hr'
      rw [hr'h] at hnot
      exact hnot (processTx_emit_mem hstep)

lemma processTxs_hashes_sublist (o : MonitorOptions) (w : List String) (i : Nat)
    (txs : List Tx) :
    ∀ seen, ((processTxs o w i txs seen).2.map Record.hash).Sublist (txs.map Tx.hash) := by
  induction txs with
  | nil => intro seen; simp [processTxs_nil]
  | cons tx rest ih =>
    intro seen
    rw [processTxs_cons, List.map_cons]
    rcases hstep : (processTx o w i seen tx).2 with _ | r
    · simp only [Option.toList_none, List.nil_append]
      exact List.Sublist.cons _ (ih (processTx o w i seen tx).1)
    · simp only [Option.toList_some, List.singleton_append, List.map_cons]
      rw [(processTx_emit_hash hstep).1]
      exact List.Sublist.cons₂ _ (ih (processTx o w i seen tx).1)

lemma processTxs_emits (o : MonitorOptions) (w : List String) (i : Nat) (txs : List Tx) :
    ∀ seen (tx : Tx), tx ∈ txs → tx.hash ∉ seen →
      (txs.map Tx.hash).count tx.hash = 1 →
      (!isIncomingTx w tx && !(isOutgoingTx w tx && o.includeOutgoing)) = false →
      ¬ ethValueOf tx.value < o.minValue →
      ∃ r ∈ (processTxs o w i txs seen).2, r.hash = tx.hash := by
  induction txs with
  | nil => intro seen tx htx _ _ _ _; simp at htx
  | cons hd rest ih =>
    intro seen tx htx hseen hcount hmatch hval
    rw [processTxs_cons]
    by_cases hh : hd.hash = tx.hash
    · have hrest0 : tx.hash ∉ rest.map Tx.hash := by
        rw [List.map_cons, List.count_cons] at hcount
        rw [← List.count_eq_zero]
        simp only [hh, beq_self_eq_true, if_true] at hcount
        omega
      have htxhd : tx = hd := by
        rcases List.mem_cons.mp htx with h | h
        · exact h
        · exact absurd (List.mem_map_of_mem Tx.hash h) hrest0
      subst htxhd
      rw [processTx_emits o w i seen tx hseen hmatch hval]
      refine ⟨{ hash := tx.hash, fromAddr := tx.fromAddr, toAddr := tx.toAddr,
                value := ethValueOf tx.value, blockNumber := i,
                type := txTypeOf (isIncomingTx w tx) (isOutgoingTx w tx) }, ?_, rfl⟩
      exact List.mem_append_left _ (by simp)
    · have htx' : tx ∈ rest := by
        rcases List.mem_cons.mp htx with h | h
        · exact absurd (congrArg Tx.hash h).symm hh
        · exact h
      have hcount' : (rest.map Tx.hash).count tx.hash = 1 := by
        rw [List.map_cons, List.count_cons] at hcount
        have hne : ¬ (hd.hash == tx.hash) = true := by
          simp only [beq_iff_eq]
          exact hh
        rw [if_neg hne] at hcount
        omega
      have hseen' : tx.hash ∉ (processTx o w i seen hd).1 := by
        rw [processTx_mem_fst]
        rintro (h | h)
        · exact hseen h
        · exact hh h.symm
      obtain ⟨r, hr, hrh⟩ := ih _ tx htx' hseen' hcount' hmatch hval
      exact ⟨r, List.mem_append_right _ hr, hrh⟩

/-! ## Structural facts about the block-range loop -/

lemma runBlocks_subset (o : MonitorOptions) (w : List String) (blocks : Nat → BlockResult)
    (hs : List Nat) : ∀ seen, seen ⊆ (runBlocks o w blocks hs seen).1 := by
  induction hs with
  | nil => intro seen a ha; simpa [runBlocks] using ha
  | cons i rest ih =>
    intro seen a ha
    cases hb : blocks i with
    | failure => simp only [runBlocks, hb]; exact ha
    | missing => simp only [runBlocks, hb]; exact ih seen ha
    | block txs =>
      simp only [runBlocks, hb]
      exact ih _ (processTxs_subset o w i txs seen ha)

lemma runBlocks_emit_not_mem (o : MonitorOptions) (w : List String)
    (blocks : Nat → BlockResult) (hs : List Nat) :
    ∀ seen r, r ∈ (runBlocks o w blocks hs seen).2.1 → r.hash ∉ seen := by
  induction hs with
  | nil => intro seen r hr; simp [runBlocks] at hr
  | cons i rest ih =>
    intro seen r hr
    cases hb : blocks i with
    | failure => simp only [runBlocks, hb] at hr; simp at hr
    | missing => simp only [runBlocks, hb] at hr; exact ih seen r hr
    | block txs =>
      simp only [runBlocks, hb] at hr
      rcases List.mem_append.mp hr with h | h
      · exact processTxs_emit_not_mem o w i txs seen r h
      · intro hm
        exact ih _ r h (processTxs_subset o w i txs seen hm)

lemma runBlocks_emit_mem_fst (o : MonitorOptions) (w : List String)
    (blocks : Nat → BlockResult) (hs : List Nat) :
    ∀ seen r, r ∈ (runBlocks o w blocks hs seen).2.1 →
      r.hash ∈ (runBlocks o w blocks hs seen).1 := by
  induction hs with
  | nil => intro seen r hr; simp [runBlocks] at hr
  | cons i rest ih =>
    intro seen r hr
    cases hb : blocks i with
    | failure => simp only [runBlocks, hb] at hr; simp at hr
    | missing => simp only [runBlocks, hb] at hr ⊢; exact ih seen r hr
    | block txs =>
      simp only [runBlocks, hb] at hr ⊢
      rcases List.mem_append.mp hr with h | h
      · exact runBlocks_subset o w blocks rest _
          (processTxs_emit_mem_fst o w i txs seen r h)
      · exact ih _ r h

lemma runBlocks_hashes_nodup (o : MonitorOptions) (w : List String)
    (blocks : Nat → BlockResult) (hs : List Nat) :
    ∀ seen, ((runBlocks o w blocks hs seen).2.1.map Record.hash).Nodup := by
  induction hs with
  | nil => intro seen; simp [runBlocks]
  | cons i rest ih =>
    intro seen
    cases hb : blocks i with
    | failure => simp [runBlocks, hb]
    | missing => simp only [runBlocks, hb]; exact ih seen
    | block txs =>
      simp only [runBlocks, hb, List.map_append]
      refine List.Nodup.append (processTxs_hashes_nodup o w i txs seen) (ih _) ?_
      intro a ha hb'
      obtain ⟨r, hr, hrh⟩ := List.mem_map.mp ha
      obtain ⟨r', hr', hr'h⟩ := List.mem_map.mp hb'
      have h1 : a ∈ (processTxs o w i txs seen).1 :=
        hrh ▸ processTxs_emit_mem_fst o w i txs seen r hr
      have h2 : a ∉ (processTxs o w i txs seen).1 :=
        hr'h ▸ runBlocks_emit_not_mem o w blocks rest _ r' hr'
      exact h2 h1

lemma runBlocks_hashes_sublist (o : MonitorOptions) (w : List String)
    (blocks : Nat → BlockResult) (hs : List Nat) :
    ∀ seen, ((runBlocks o w blocks hs seen).2.1.map Record.hash).Sublist
      (presentedHashes blocks hs) := by
  induction hs with
  | nil => intro seen; simp [runBlocks, presentedHashes]
  | cons i rest ih =>
    intro seen
    simp only [presentedHashes, List.flatMap_cons]
    cases hb : blocks i with
    | failure =>
      simp only [runBlocks, hb]
      simp
    | missing =>
      simp only [runBlocks, hb, txsAt]
      simp only [List.map_nil, List.nil_append]
      exact ih seen
    | block txs =>
      simp only [runBlocks, hb, txsAt, List.map_append]
      exact List.Sublist.append (processTxs_hashes_sublist o w i txs seen) (ih _)

lemma runBlocks_emits (o : MonitorOptions) (w : List String) (blocks : Nat → BlockResult)
    (hs : List Nat) :
    ∀ seen (i : Nat) (tx : Tx), (runBlocks o w blocks hs seen).2.2 = false →
      i ∈ hs → tx ∈ txsAt blocks i → tx.hash ∉ seen →
      (presentedHashes blocks hs).count tx.hash = 1 →
      (!isIncomingTx w tx && !(isOutgoingTx w tx && o.includeOutgoing)) = false →
      ¬ ethValueOf tx.value < o.minValue →
      ∃ r ∈ (runBlocks o w blocks hs seen).2.1, r.hash = tx.hash := by
  induction hs with
  | nil => intro seen i tx _ hi; simp at hi
  | cons j rest ih =>
    intro seen i tx hflag hi htx hseen hcount hmatch hval
    rw [presentedHashes, List.flatMap_cons, List.count_append] at hcount
    have hfold : (rest.flatMap fun k => (txsAt blocks k).map Tx.hash) =
        presentedHashes blocks rest := rfl
    rw [hfold] at hcount
    cases hb : blocks j with
    | failure =>
      rw [show (runBlocks o w blocks (j :: rest) seen) = (seen, [], true) by
        simp only [runBlocks, hb]] at hflag
      simp at hflag
    | missing =>
      have hij : i ∈ rest := by
        rcases List.mem_cons.mp hi with h | h
        · subst h
          rw [txsAt, hb] at htx
          simp at htx
        · exact h
      have hj0 : (txsAt blocks j).map Tx.hash = [] := by rw [txsAt, hb]; rfl
      rw [hj0, List.count_nil] at hcount
      simp only [runBlocks, hb]
      exact ih seen i tx (by simpa only [runBlocks, hb] using hflag) hij htx hseen
        (by omega) hmatch hval
    | block txs =>
      have hflag' : (runBlocks o w blocks rest (processTxs o w j txs seen).1).2.2 = false := by
        simpa only [runBlocks, hb] using hflag
      have htxs : (txsAt blocks j).map Tx.hash = txs.map Tx.hash := by rw [txsAt, hb]
      by_cases hij : i = j
      · subst hij
        have htx' : tx ∈ txs := by rwa [txsAt, hb] at htx
        have hin : tx.hash ∈ txs.map Tx.hash := List.mem_map_of_mem Tx.hash htx'
        have hpos : (txs.map Tx.hash).count tx.hash ≠ 0 := fun hc =>
          (List.count_eq_zero.mp hc) hin
        have hone : (txs.map Tx.hash).count tx.hash = 1 := by
          rw [htxs] at hcount
          omega
        obtain ⟨r, hr, hrh⟩ := processTxs_emits o w i txs seen tx htx' hseen hone hmatch hval
        refine ⟨r, ?_, hrh⟩
        simp only [runBlocks, hb]
        exact List.mem_append_left _ hr
      · have hij' : i ∈ rest := by
          rcases List.mem_cons.mp hi with h | h
          · exact absurd h hij
          · exact h
        have hrest_pos : (presentedHashes blocks rest).count tx.hash ≠ 0 := by
          intro hc
          apply List.count_eq_zero.mp hc
          rw [presentedHashes, List.mem_flatMap]
          exact ⟨i, hij', List.mem_map_of_mem Tx.hash htx⟩
        have hj0 : tx.hash ∉ txs.map Tx.hash := by
          rw [← List.count_eq_zero]
          rw [htxs] at hcount
          omega
        have hseen' : tx.hash ∉ (processTxs o w j txs seen).1 := by
          rw [processTxs_mem_fst]
          rintro (h | h)
          · exact hseen h
          · exact hj0 h
        have hcount' : (presentedHashes blocks rest).count tx.hash = 1 := by
          rw [htxs] at hcount
          have : (txs.map Tx.hash).count tx.hash = 0 := List.count_eq_zero.mpr hj0
          omega
        obtain ⟨r, hr, hrh⟩ := ih _ i tx hflag' hij' htx hseen' hcount' hmatch hval
        refine ⟨r, ?_, hrh⟩
        simp only [runBlocks, hb]
        exact List.mem_append_right _ hr

/-! ## Structural facts about one polling cycle and cycle sequences -/

lemma runCycle_error (o : MonitorOptions) (w : List String) (blocks : Nat → BlockResult)
    (st : SessionState) (e : Unit) :
    runCycle o w (.error e) blocks st = ⟨st, [], true, false⟩ := rfl

lemma runCycle_le (o : MonitorOptions) (w : List String) (blocks : Nat → BlockResult)
    (st : SessionState) (H : Nat) (h : H ≤ st.lastProcessedBlock) :
    runCycle o w (.ok H) blocks st = ⟨st, [], false, false⟩ := by
  simp [runCycle, h]

lemma runCycle_events (o : MonitorOptions) (w : List String) (blocks : Nat → BlockResult)
    (st : SessionState) (H : Nat) (h : st.lastProcessedBlock < H) :
    (runCycle o w (.ok H) blocks st).events =
      (runBlocks o w blocks (cycleRange st.lastProcessedBlock H) st.processedTxs).2.1 := by
  simp only [runCycle, if_neg (not_le.mpr h)]
  split <;> rfl

lemma runCycle_errored_eq (o : MonitorOptions) (w : List String) (blocks : Nat → BlockResult)
    (st : SessionState) (H : Nat) (h : st.lastProcessedBlock < H) :
    (runCycle o w (.ok H) blocks st).errored =
      (runBlocks o w blocks (cycleRange st.lastProcessedBlock H) st.processedTxs).2.2 := by
  simp only [runCycle, if_neg (not_le.mpr h)]
  split
  · rename_i hres
    exact hres.symm
  · rename_i hres
    exact (Bool.not_eq_true _).mp hres |>.symm

lemma runCycle_last_mono (o : MonitorOptions) (w : List String) (head : Except Unit Nat)
    (blocks : Nat → BlockResult) (st : SessionState) :
    st.lastProcessedBlock ≤ (runCycle o w head blocks st).state.lastProcessedBlock := by
  cases head with
  | error e => exact le_refl _
  | ok H =>
    by_cases h : H ≤ st.lastProcessedBlock
    · rw [runCycle_le o w blocks st H h]
    · simp only [runCycle, if_neg h]
      split
      · exact le_refl _
      · exact Nat.le_of_lt (not_le.mp h)

lemma runCycle_errored_last (o : MonitorOptions) (w : List String) (head : Except Unit Nat)
    (blocks : Nat → BlockResult) (st : SessionState)
    (he : (runCycle o w head blocks st).errored = true) :
    (runCycle o w head blocks st).state.lastProcessedBlock = st.lastProcessedBlock := by
  cases head with
  | error e => rfl
  | ok H =>
    by_cases h : H ≤ st.lastProcessedBlock
    · rw [runCycle_le o w blocks st H h]
    · simp only [runCycle, if_neg h] at he ⊢
      split at he
      · rename_i hres
        simp only [runCycle, if_neg h, if_pos hres]
      · simp at he

lemma runCycle_ok_last (o : MonitorOptions) (w : List String) (H : Nat)
    (blocks : Nat → BlockResult) (st : SessionState)
    (he : (runCycle o w (.ok H) blocks st).errored = false) :
    (runCycle o w (.ok H) blocks st).state.lastProcessedBlock =
      max st.lastProcessedBlock H := by
  by_cases h : H ≤ st.lastProcessedBlock
  · rw [runCycle_le o w blocks st H h]
    exact (Nat.max_eq_left h).symm
  · simp only [runCycle, if_neg h] at he ⊢
    split at he
    · simp at he
    · rename_i hres
      have hres' : ¬ ((runBlocks o w blocks (cycleRange st.lastProcessedBlock H)
          st.processedTxs).2.2 = true) := hres
      simp only [runCycle, if_neg h, if_neg hres']
      exact (Nat.max_eq_right (Nat.le_of_lt (not_le.mp h))).symm

lemma runCycle_seen_subset (o : MonitorOptions) (w : List String) (head : Except Unit Nat)
    (blocks : Nat → BlockResult) (st : SessionState)
    (hc : (runCycle o w head blocks st).cleared = false) :
    st.processedTxs ⊆ (runCycle o w head blocks st).state.processedTxs := by
  cases head with
  | error e => exact fun a ha => ha
  | ok H =>
    by_cases h : H ≤ st.lastProcessedBlock
    · rw [runCycle_le o w blocks st H h]
      exact fun a ha => ha
    · simp only [runCycle, if_neg h] at hc ⊢
      split
      · exact runBlocks_subset o w blocks _ st.processedTxs
      · rename_i hres
        split at hc
        · rename_i hres2
          exact absurd hres2 hres
        · simp only [Bool.false_eq_true] at hc ⊢
          rw [if_neg (by simpa using hc)]
          exact runBlocks_subset o w blocks _ st.processedTxs

lemma runCycle_emit_not_mem (o : MonitorOptions) (w : List String) (head : Except Unit Nat)
    (blocks : Nat → BlockResult) (st : SessionState) (r : Record)
    (hr : r ∈ (runCycle o w head blocks st).events) : r.hash ∉ st.processedTxs := by
  cases head with
  | error e => simp [runCycle_error] at hr
  | ok H =>
    by_cases h : H ≤ st.lastProcessedBlock
    · rw [runCycle_le o w blocks st H h] at hr
      simp at hr
    · rw [runCycle_events o w blocks st H (not_le.mp h)] at hr
      exact runBlocks_emit_not_mem o w blocks _ st.processedTxs r hr

lemma runCycle_emit_mem (o : MonitorOptions) (w : List String) (head : Except Unit Nat)
    (blocks : Nat → BlockResult) (st : SessionState) (r : Record)
    (hc : (runCycle o w head blocks st).cleared = false)
    (hr : r ∈ (runCycle o w head blocks st).events) :
    r.hash ∈ (runCycle o w head blocks st).state.processedTxs := by
  cases head with
  | error e => simp [runCycle_error] at hr
  | ok H =>
    by_cases h : H ≤ st.lastProcessedBlock
    · rw [runCycle_le o w blocks st H h] at hr
      simp at hr
    · rw [runCycle_events o w blocks st H (not_le.mp h)] at hr
      have hmem := runBlocks_emit_mem_fst o w blocks _ st.processedTxs r hr
      simp only [runCycle, if_neg h] at hc ⊢
      split
      · exact hmem
      · rename_i hres
        split at hc
        · rename_i hres2
          exact absurd hres2 hres
        · simp only [Bool.false_eq_true] at hc ⊢
          rw [if_neg (by simpa using hc)]
          exact hmem

lemma runCycle_hashes_nodup (o : MonitorOptions) (w : List String) (head : Except Unit Nat)
    (blocks : Nat → BlockResult) (st : SessionState) :
    ((runCycle o w head blocks st).events.map Record.hash).Nodup := by
  cases head with
  | error e => simp [runCycle_error]
  | ok H =>
    by_cases h : H ≤ st.lastProcessedBlock
    · rw [runCycle_le o w blocks st H h]
      exact List.nodup_nil
    · rw [runCycle_events o w blocks st H (not_le.mp h)]
      exact runBlocks_hashes_nodup o w blocks _ st.processedTxs

lemma runCycles_cons (o : MonitorOptions) (w : List String) (c : CycleInput)
    (cs : List CycleInput) (st : SessionState) :
    runCycles o w (c :: cs) st =
      ((runCycles o w cs (runCycle o w c.head c.blocks st).state).1,
       (runCycle o w c.head c.blocks st).events ++
         (runCycles o w cs (runCycle o w c.head c.blocks st).state).2.1,
       (runCycle o w c.head c.blocks st).cleared ||
         (runCycles o w cs (runCycle o w c.head c.blocks st).state).2.2) := rfl

lemma runCycles_seen_subset (o : MonitorOptions) (w : List String) (cs : List CycleInput) :
    ∀ st, (runCycles o w cs st).2.2 = false →
      st.processedTxs ⊆ (runCycles o w cs st).1.processedTxs := by
  induction cs with
  | nil => intro st _ a ha; exact ha
  | cons c rest ih =>
    intro st hcl a ha
    rw [runCycles_cons] at hcl ⊢
    rcases Bool.or_eq_false_iff.mp hcl with ⟨h1, h2⟩
    exact ih _ h2 (runCycle_seen_subset o w c.head c.blocks st h1 ha)

lemma runCycles_emit_not_mem (o : MonitorOptions) (w : List String) (cs : List CycleInput) :
    ∀ st, (runCycles o w cs st).2.2 = false →
      ∀ r ∈ (runCycles o w cs st).2.1, r.hash ∉ st.processedTxs := by
  induction cs with
  | nil => intro st _ r hr; simp [runCycles] at hr
  | cons c rest ih =>
    intro st hcl r hr
    rw [runCycles_cons] at hcl hr
    rcases Bool.or_eq_false_iff.mp hcl with ⟨h1, h2⟩
    rcases List.mem_append.mp hr with h | h
    · exact runCycle_emit_not_mem o w c.head c.blocks st r h
    · intro hm
      exact ih _ h2 r h (runCycle_seen_subset o w c.head c.blocks st h1 hm)

lemma runCycles_hashes_nodup (o : MonitorOptions) (w : List String) (cs : List CycleInput) :
    ∀ st, (runCycles o w cs st).2.2 = false →
      ((runCycles o w cs st).2.1.map Record.hash).Nodup := by
  induction cs with
  | nil => intro st _; simp [runCycles]
  | cons c rest ih =>
    intro st hcl
    rw [runCycles_cons] at hcl ⊢
    rcases Bool.or_eq_false_iff.mp hcl with ⟨h1, h2⟩
    simp only [List.map_append]
    refine List.Nodup.append (runCycle_hashes_nodup o w c.head c.blocks st) (ih _ h2) ?_
    intro a ha hb
    obtain ⟨r, hr, hrh⟩ := List.mem_map.mp ha
    obtain ⟨r', hr', hr'h⟩ := List.mem_map.mp hb
    have h1' : a ∈ (runCycle o w c.head c.blocks st).state.processedTxs :=
      hrh ▸ runCycle_emit_mem o w c.head c.blocks st r h1 hr
    have h2' : a ∉ (runCycle o w c.head c.blocks st).state.processedTxs :=
      hr'h ▸ runCycles_emit_not_mem o w rest _ h2 r' hr'
    exact h2' h1'

/-! ## Registry lemmas -/

lemma lookupSession_removeSession (sid : String) (reg : Registry) :
    lookupSession sid (removeSession sid reg) = none := by
  induction reg with
  | nil => rfl
  | cons p rest ih =>
    obtain ⟨k, v⟩ := p
    show lookupSession sid (List.filter _ ((k, v) :: rest)) = none
    rw [List.filter_cons]
    by_cases h : k = sid
    · rw [if_neg (by simp [h])]
      exact ih
    · rw [if_pos (by simp [h])]
      show (if k = sid then some v else lookupSession sid (removeSession sid rest)) = none
      rw [if_neg h]
      exact ih

/-! ## The claims -/

/-- C8: for every sessionId that is unknown to the registry or belongs to an
already-stopped session, `stopMonitoring` fails with `SessionNotFound` and
leaves the session registry otherwise unchanged.  First conjunct: an unknown
id errors and returns the registry untouched.  Second conjunct: after a
successful stop of `sid`, a second stop of `sid` errors and leaves the
registry as the first stop left it. -/
theorem C8_stop_unknown_fails_registry_unchanged (reg : Registry) (sid : String)
    (cOk tOk cOk2 tOk2 : Bool) :
    (lookupSession sid reg = none →
      stopMonitoring reg sid cOk tOk = (reg, .error (.sessionNotFound sid))) ∧
    (∀ e, lookupSession sid reg = some e →
      stopMonitoring (stopMonitoring reg sid cOk tOk).1 sid cOk2 tOk2 =
        ((stopMonitoring reg sid cOk tOk).1, .error (.sessionNotFound sid))) := by
  constructor
  · intro h
    simp only [stopMonitoring, h]
  · intro e h
    have h1 : stopMonitoring reg sid cOk tOk = (removeSession sid reg, .ok true) := by
      simp only [stopMonitoring, h]
    rw [h1]
    simp only [stopMonitoring, lookupSession_removeSession]

/-- Witness for C8 at a concrete registry: stopping an id that is not
registered fails with `SessionNotFound` and returns the registry unchanged,
and re-stopping an id after a successful stop fails the same way. -/
theorem C8_witness :
    lookupSession "s2" [("s1", SessionEntry.mk ["0xaa"] "c")] = none ∧
    stopMonitoring [("s1", SessionEntry.mk ["0xaa"] "c")] "s2" true true =
      ([("s1", SessionEntry.mk ["0xaa"] "c")], .error (.sessionNotFound "s2")) ∧
    lookupSession "s1" [("s1", SessionEntry.mk ["0xaa"] "c")] =
      some (SessionEntry.mk ["0xaa"] "c") ∧
    stopMonitoring (stopMonitoring [("s1", SessionEntry.mk ["0xaa"] "c")] "s1" true true).1
        "s1" true true =
      ((stopMonitoring [("s1", SessionEntry.mk ["0xaa"] "c")] "s1" true true).1,
       .error (.sessionNotFound "s1")) :=
  ⟨by decide,
   (C8_stop_unknown_fails_registry_unchanged [("s1", SessionEntry.mk ["0xaa"] "c")] "s2"
     true true true true).1 (by decide),
   by decide,
   (C8_stop_unknown_fails_registry_unchanged [("s1", SessionEntry.mk ["0xaa"] "c")] "s1"
     true true true true).2 (SessionEntry.mk ["0xaa"] "c") (by decide)⟩

/-- C10: for every sessionId present in the registry, `stopMonitoring`
returns `true` and removes the session, for every notification outcome — in
particular when the delivery transport fails — because
`sendTelegramNotification` catches every transport error and returns `false`
instead of throwing (modelled by it being a total `Bool`-valued function). -/
theorem C10_stop_succeeds_despite_notification_failure (reg : Registry) (sid : String)
    (e : SessionEntry) (cOk tOk : Bool) (h : lookupSession sid reg = some e) :
    stopMonitoring reg sid cOk tOk = (removeSession sid reg, .ok true) ∧
    sendTelegramNotification cOk false = false := by
  constructor
  · simp only [stopMonitoring, h]
  · cases cOk <;> rfl

/-- Witness for C10: a present session is stopped successfully (returning
`true` and removing the entry) even when the notification transport fails. -/
theorem C10_witness :
    lookupSession "s1" [("s1", SessionEntry.mk ["0xaa"] "c")] =
      some (SessionEntry.mk ["0xaa"] "c") ∧
    stopMonitoring [("s1", SessionEntry.mk ["0xaa"] "c")] "s1" true false =
      (removeSession "s1" [("s1", SessionEntry.mk ["0xaa"] "c")], .ok true) :=
  ⟨by decide,
   (C10_stop_succeeds_despite_notification_failure [("s1", SessionEntry.mk ["0xaa"] "c")]
     "s1" (SessionEntry.mk ["0xaa"] "c") true false (by decide)).1⟩

/-- C1 counterexample: the claim says a non-empty address list with no
syntactically valid entry must fail with `NoValidAddresses`; in the source
there is no such check — `startMonitoring` succeeds and returns a session id
with an empty watch set. -/
theorem C1_counterexample :
    (["nonsense"] : List String) ≠ [] ∧
    isAddress "nonsense" = false ∧
    startMonitoring true ["nonsense"] (.ok 100) =
      .ok { watchAddresses := [], lastProcessedBlock := 100 } := by
  refine ⟨by simp, by decide, rfl⟩

/-- C1 amended: for every call whose address list is non-empty but contains
no syntactically valid chain address, `startMonitoring` does not fail —
individually invalid entries are logged and dropped, and the session starts
successfully with an empty watch set (there is no `NoValidAddresses` error
in the code). -/
theorem C1_all_invalid_starts_with_empty_watch_set (addresses : List String) (h : Nat)
    (hne : addresses ≠ [])
    (hinv : ∀ a ∈ addresses, isAddress a = false) :
    startMonitoring true addresses (.ok h) =
      .ok { watchAddresses := [], lastProcessedBlock := h } := by
  have hempty : addresses.isEmpty = false := by
    cases addresses with
    | nil => exact absurd rfl hne
    | cons a rest => rfl
  have hwatch : validWatchList addresses = [] := by
    rw [validWatchList, List.filterMap_eq_nil_iff]
    intro a ha
    rw [if_neg (by rw [hinv a ha]; exact Bool.false_ne_true)]
  simp only [startMonitoring, Bool.not_true, Bool.false_eq_true, if_false, hempty, hwatch]

/-- Witness for the amended C1: `["nonsense"]` is non-empty, entirely
invalid, and start succeeds with an empty watch set. -/
theorem C1_witness :
    (["nonsense"] : List String) ≠ [] ∧
    (∀ a ∈ (["nonsense"] : List String), isAddress a = false) ∧
    startMonitoring true ["nonsense"] (.ok 100) =
      .ok { watchAddresses := [], lastProcessedBlock := 100 } :=
  ⟨by simp, by decide,
   C1_all_invalid_starts_with_empty_watch_set ["nonsense"] 100 (by simp) (by decide)⟩

/-- C9: the classifier's null guards.  A transaction with no `to` address is
never classified incoming (first conjunct), one with no `from` is never
classified outgoing (second conjunct); a null-`to` transaction is acted on
exactly when it is unseen, its `from` is in the watch set, `includeOutgoing`
is enabled and it passes the value filter (third conjunct), and when it is
acted on its classification is `Outgoing`, never `Incoming` or `InternalTx`
(fourth conjunct).  Totality of the Lean functions reflects that the source's
`tx.to && ...` guard prevents any error on the null field. -/
theorem C9_null_address_guard (o : MonitorOptions) (w : List String) (i : Nat)
    (seen : List String) (tx tx2 : Tx) (hto : tx.toAddr = none)
    (hfrom : tx2.fromAddr = none) :
    isIncomingTx w tx = false ∧
    isOutgoingTx w tx2 = false ∧
    ((processTx o w i seen tx).2.isSome = true ↔
      (tx.hash ∉ seen ∧ isOutgoingTx w tx = true ∧ o.includeOutgoing = true ∧
        ¬ ethValueOf tx.value < o.minValue)) ∧
    (∀ r, (processTx o w i seen tx).2 = some r → r.type = TxType.outgoing) := by
  have hIn : isIncomingTx w tx = false := by simp [isIncomingTx, hto]
  refine ⟨hIn, by simp [isOutgoingTx, hfrom], ?_, ?_⟩
  · rw [processTx_snd, hIn]
    by_cases h1 : tx.hash ∈ seen
    · simp [h1]
    · rw [if_neg h1]
      by_cases h2 : (isOutgoingTx w tx && o.includeOutgoing) = true
      · rw [if_neg (by simp [h2])]
        simp only [Bool.and_eq_true] at h2
        obtain ⟨h2a, h2b⟩ := h2
        by_cases h3 : ethValueOf tx.value < o.minValue
        · simp [h1, h2a, h2b, h3]
        · simp [h1, h2a, h2b, h3]
      · have h2' : (isOutgoingTx w tx && o.includeOutgoing) = false := by
          cases hov : (isOutgoingTx w tx && o.includeOutgoing) with
          | false => rfl
          | true => exact absurd hov h2
        rw [if_pos (by rw [h2']; rfl)]
        simp only [Option.isSome_none, Bool.false_eq_true, false_iff]
        rintro ⟨-, ho, hi', -⟩
        rw [ho, hi'] at h2'
        simp at h2'
  · intro r hr
    rw [processTx_snd, hIn] at hr
    by_cases h1 : tx.hash ∈ seen
    · rw [if_pos h1] at hr
      simp at hr
    · rw [if_neg h1] at hr
      by_cases h2 : (!false && !(isOutgoingTx w tx && o.includeOutgoing)) = true
      · rw [if_pos h2] at hr
        simp at hr
      · rw [if_neg h2] at hr
        by_cases h3 : ethValueOf tx.value < o.minValue
        · rw [if_pos h3] at hr
          simp at hr
        · rw [if_neg h3] at hr
          have hX := Option.some.inj hr
          rw [← hX]
          simp [txTypeOf]

/-- Witness for C9: a concrete contract-creation transaction (null `to`)
with its `from` watched and `includeOutgoing` on is acted upon, and a null
`from` is not outgoing. -/
theorem C9_witness :
    ((⟨"h1", some "0xaa", none, 0⟩ : Tx).toAddr = none) ∧
    ((⟨"h2", none, some "0xaa", 0⟩ : Tx).fromAddr = none) ∧
    isIncomingTx ["0xaa"] ⟨"h1", some "0xaa", none, 0⟩ = false ∧
    isOutgoingTx ["0xaa"] ⟨"h2", none, some "0xaa", 0⟩ = false ∧
    ((processTx ⟨0, true, true⟩ ["0xaa"] 4 [] ⟨"h1", some "0xaa", none, 0⟩).2.isSome = true ↔
      ("h1" ∉ ([] : List String) ∧
        isOutgoingTx ["0xaa"] ⟨"h1", some "0xaa", none, 0⟩ = true ∧
        (⟨0, true, true⟩ : MonitorOptions).includeOutgoing = true ∧
        ¬ ethValueOf (Tx.value ⟨"h1", some "0xaa", none, 0⟩) <
          (⟨0, true, true⟩ : MonitorOptions).minValue)) := by
  have h := C9_null_address_guard ⟨0, true, true⟩ ["0xaa"] 4 []
    ⟨"h1", some "0xaa", none, 0⟩ ⟨"h2", none, some "0xaa", 0⟩ rfl rfl
  exact ⟨rfl, rfl, h.1, h.2.1, h.2.2.1⟩

/-- C3 counterexample: the claim says the filter discards exactly when the
full-precision converted value is below `minValue`.  With `minValue = 1` and
`tx.value = 10^18 - 1` wei the exact value `0.999999999999999999` ether is
strictly below `minValue`, yet `parseFloat` rounds it up to exactly `1.0`,
so the code keeps the transaction and emits a record with value `1`. -/
theorem C3_counterexample :
    ((10 ^ 18 - 1 : ℕ) : ℚ) / 10 ^ 18 < 1 ∧
    (processTx ⟨1, true, false⟩ ["0xaa"] 7 []
        ⟨"h1", some "0xbb", some "0xaa", 10 ^ 18 - 1⟩).2 =
      some ⟨"h1", some "0xbb", some "0xaa", 1, 7, TxType.incoming⟩ := by
  constructor
  · rw [show ((10 ^ 18 - 1 : ℕ) : ℚ) = 999999999999999999 by norm_num]
    norm_num
  · have hval : ¬ ethValueOf (10 ^ 18 - 1) <
        (⟨1, true, false⟩ : MonitorOptions).minValue := by
      show ¬ ethValueOf (10 ^ 18 - 1) < 1
      rw [ethValueOf_almost_one]
      exact lt_irrefl 1
    rw [processTx_emits ⟨1, true, false⟩ ["0xaa"] 7 []
      ⟨"h1", some "0xbb", some "0xaa", 10 ^ 18 - 1⟩ (by simp) (by decide) hval]
    simp only [ethValueOf_almost_one]
    rw [show isIncomingTx ["0xaa"] ⟨"h1", some "0xbb", some "0xaa", 10 ^ 18 - 1⟩ = true
        from by decide,
      show isOutgoingTx ["0xaa"] ⟨"h1", some "0xbb", some "0xaa", 10 ^ 18 - 1⟩ = false
        from by decide]
    rfl

/-- C3 amended: the value filter discards an unseen, matching transaction
exactly when its value rounded to the nearest binary64 (the result of
`parseFloat` on the full-precision decimal string) is strictly below
`minValue`; the rounding can change the comparison for amounts within half
an ulp of `minValue`, as the counterexample shows. -/
theorem C3_value_filter_compares_rounded_value (o : MonitorOptions) (w : List String)
    (i : Nat) (seen : List String) (tx : Tx) (h1 : tx.hash ∉ seen)
    (h2 : isIncomingTx w tx = true) :
    (processTx o w i seen tx).2 = none ↔ ethValueOf tx.value < o.minValue := by
  rw [processTx_snd, if_neg h1, h2]
  rw [if_neg (by simp)]
  by_cases h3 : ethValueOf tx.value < o.minValue
  · simp [h3]
  · simp [h3]

/-- Witness for the amended C3 at the counterexample's input: the rounded
value `1` is not below `minValue = 1`, so the transaction is not
discarded. -/
theorem C3_witness :
    "h1" ∉ ([] : List String) ∧
    isIncomingTx ["0xaa"] ⟨"h1", some "0xbb", some "0xaa", 10 ^ 18 - 1⟩ = true ∧
    ¬ (processTx ⟨1, true, false⟩ ["0xaa"] 7 []
        ⟨"h1", some "0xbb", some "0xaa", 10 ^ 18 - 1⟩).2 = none := by
  refine ⟨by simp, by decide, ?_⟩
  rw [C3_value_filter_compares_rounded_value ⟨1, true, false⟩ ["0xaa"] 7 []
    ⟨"h1", some "0xbb", some "0xaa", 10 ^ 18 - 1⟩ (by simp) (by decide)]
  show ¬ ethValueOf (10 ^ 18 - 1) < 1
  rw [ethValueOf_almost_one]
  exact lt_irrefl 1

/-- C4 counterexample: the claim says only acted-upon (matched, filtered)
transactions enter the dedup window.  In the code the dedup mark happens
before classification: this cycle observes one transaction that matches
nothing (its addresses are outside the watch set), emits no record, and the
transaction's hash nevertheless sits in the dedup window afterwards. -/
theorem C4_counterexample :
    isIncomingTx ["0xaa"] ⟨"h1", some "0xcc", some "0xbb", 5⟩ = false ∧
    isOutgoingTx ["0xaa"] ⟨"h1", some "0xcc", some "0xbb", 5⟩ = false ∧
    (runCycle ⟨0, true, false⟩ ["0xaa"] (.ok 1)
      (fun _ => .block [⟨"h1", some "0xcc", some "0xbb", 5⟩]) ⟨0, []⟩).events = [] ∧
    "h1" ∈ (runCycle ⟨0, true, false⟩ ["0xaa"] (.ok 1)
      (fun _ => .block [⟨"h1", some "0xcc", some "0xbb", 5⟩]) ⟨0, []⟩).state.processedTxs := by
  refine ⟨by decide, by decide, by decide, by decide⟩

/-- C4 amended: the dedup check and mark run before classification and the
value filter, so after the inner loop of a cycle the dedup window holds
exactly the prior window plus the hashes of all presented transactions,
matched or not. -/
theorem C4_window_holds_all_presented (o : MonitorOptions) (w : List String) (i : Nat)
    (txs : List Tx) (seen : List String) :
    ∀ a, a ∈ (processTxs o w i txs seen).1 ↔ a ∈ seen ∨ a ∈ txs.map Tx.hash :=
  processTxs_mem_fst o w i txs seen

/-- Witness for the amended C4: the unmatched transaction's hash is in the
window afterwards. -/
theorem C4_witness :
    ("h1" ∈ (processTxs ⟨0, true, false⟩ ["0xaa"] 3
        [⟨"h1", some "0xcc", some "0xbb", 5⟩] []).1 ↔
      "h1" ∈ ([] : List String) ∨
        "h1" ∈ ([⟨"h1", some "0xcc", some "0xbb", 5⟩] : List Tx).map Tx.hash) :=
  C4_window_holds_all_presented ⟨0, true, false⟩ ["0xaa"] 3
    [⟨"h1", some "0xcc", some "0xbb", 5⟩] [] "h1"

/-- C5: `lastProcessedHeight` never decreases across a cycle (first
conjunct); a cycle aborted by an unhandled error leaves it unchanged, so the
same range is retried next cycle (second conjunct); and an error-free cycle
that fetched head `H` leaves it at `max` of the old height and `H` — i.e. it
advances to `H` exactly when `H` is ahead, and only after the whole range
`(last, H]` was classified, since the assignment follows the loop (third
conjunct). -/
theorem C5_height_monotone_error_retries (o : MonitorOptions) (w : List String)
    (head : Except Unit Nat) (blocks : Nat → BlockResult) (st : SessionState) :
    st.lastProcessedBlock ≤ (runCycle o w head blocks st).state.lastProcessedBlock ∧
    ((runCycle o w head blocks st).errored = true →
      (runCycle o w head blocks st).state.lastProcessedBlock = st.lastProcessedBlock) ∧
    (∀ H, head = .ok H → (runCycle o w head blocks st).errored = false →
      (runCycle o w head blocks st).state.lastProcessedBlock =
        max st.lastProcessedBlock H) :=
  ⟨runCycle_last_mono o w head blocks st,
   runCycle_errored_last o w head blocks st,
   fun H hH he => by subst hH; exact runCycle_ok_last o w H blocks st he⟩

/-- Witness for C5: an error-free cycle from height 3 with fetched head 5
advances the height to 5. -/
theorem C5_witness :
    (runCycle ⟨0, true, false⟩ [] (.ok 5) (fun _ => .missing) ⟨3, []⟩).errored = false ∧
    (runCycle ⟨0, true, false⟩ [] (.ok 5)
      (fun _ => .missing) ⟨3, []⟩).state.lastProcessedBlock = max 3 5 :=
  ⟨by decide,
   (C5_height_monotone_error_retries ⟨0, true, false⟩ [] (.ok 5) (fun _ => .missing)
     ⟨3, []⟩).2.2 5 rfl (by decide)⟩

/-- C6: a transaction whose `to` (lower-cased) is in the watch set, whose
exact value is at least a binary64-representable `minValue`, whose hash is
not yet marked seen and which the provider reports exactly once in the
cycle's range, produces — in an error-free cycle — exactly one notification
attempt (one emitted record), exactly one audit record when persistence is
enabled, and the emitted records appear in presentation order: ascending
block height, then transaction position within the block
(`presentedHashes` enumerates the cycle's transactions in exactly that
order, and the emitted hashes form a sublist of it). -/
theorem C6_matched_unseen_tx_reported_once_in_order (o : MonitorOptions)
    (w : List String) (blocks : Nat → BlockResult) (st : SessionState) (H i : Nat)
    (tx : Tx) (a : String)
    (hi : i ∈ cycleRange st.lastProcessedBlock H)
    (htx : tx ∈ txsAt blocks i)
    (hto : tx.toAddr = some a)
    (ha : toLowerStr a ∈ w)
    (hseen : tx.hash ∉ st.processedTxs)
    (hcount : (presentedHashes blocks (cycleRange st.lastProcessedBlock H)).count
      tx.hash = 1)
    (hrep : roundToFloat64 o.minValue = o.minValue)
    (hval : o.minValue ≤ (tx.value : ℚ) / 10 ^ 18)
    (herr : (runCycle o w (.ok H) blocks st).errored = false) :
    (runCycle o w (.ok H) blocks st).events.countP (fun r => r.hash == tx.hash) = 1 ∧
    (o.saveTransactions = true →
      (auditRecords o (runCycle o w (.ok H) blocks st).events).countP
        (fun r => r.hash == tx.hash) = 1) ∧
    ((runCycle o w (.ok H) blocks st).events.map Record.hash).Sublist
      (presentedHashes blocks (cycleRange st.lastProcessedBlock H)) := by
  have hlt : st.lastProcessedBlock < H := by
    rw [cycleRange, List.mem_range'_1] at hi
    omega
  have hev := runCycle_events o w blocks st H hlt
  have herr' : (runBlocks o w blocks (cycleRange st.lastProcessedBlock H)
      st.processedTxs).2.2 = false := by
    rw [← runCycle_errored_eq o w blocks st H hlt]
    exact herr
  have hmatch : (!isIncomingTx w tx && !(isOutgoingTx w tx && o.includeOutgoing))
      = false := by
    have hin : isIncomingTx w tx = true := by
      simp [isIncomingTx, hto, ha]
    simp [hin]
  have hvalue : ¬ ethValueOf tx.value < o.minValue := by
    rw [ethValueOf]
    exact not_lt.mpr (roundToFloat64_le_of_le hrep hval)
  obtain ⟨r0, hr0, hr0h⟩ := runBlocks_emits o w blocks _ st.processedTxs i tx herr'
    hi htx hseen hcount hmatch hvalue
  have hnodup := runBlocks_hashes_nodup o w blocks (cycleRange st.lastProcessedBlock H)
    st.processedTxs
  have hone : (runBlocks o w blocks (cycleRange st.lastProcessedBlock H)
      st.processedTxs).2.1.countP (fun r => r.hash == tx.hash) = 1 := by
    have hle : (runBlocks o w blocks (cycleRange st.lastProcessedBlock H)
        st.processedTxs).2.1.countP (fun r => r.hash == tx.hash) ≤ 1 := by
      have hcnt := List.nodup_iff_count_le_one.mp hnodup tx.hash
      rw [List.count_eq_countP, List.countP_map] at hcnt
      exact hcnt
    have hge : 0 < (runBlocks o w blocks (cycleRange st.lastProcessedBlock H)
        st.processedTxs).2.1.countP (fun r => r.hash == tx.hash) := by
      rw [List.countP_pos_iff]
      exact ⟨r0, hr0, beq_iff_eq.mpr hr0h⟩
    omega
  refine ⟨by rw [hev]; exact hone, ?_, ?_⟩
  · intro hsave
    rw [hev]
    simp only [auditRecords, hsave, if_true]
    exact hone
  · rw [hev]
    exact runBlocks_hashes_sublist o w blocks (cycleRange st.lastProcessedBlock H)
      st.processedTxs


lemma exTx_processTx (seen : List String) (h : "h1" ∉ seen) :
    processTx exOpts ["0xaa"] 1 seen exTx = ("h1" :: seen, some exRec) := by
  have hval : ¬ ethValueOf exTx.value < exOpts.minValue := by
    show ¬ ethValueOf 0 < 0
    rw [ethValueOf_zero]
    exact lt_irrefl 0
  rw [processTx_emits exOpts ["0xaa"] 1 seen exTx h (by decide) hval]
  rw [show ethValueOf exTx.value = 0 from ethValueOf_zero]
  rw [show isIncomingTx ["0xaa"] exTx = true from by decide,
      show isOutgoingTx ["0xaa"] exTx = false from by decide]
  rfl

lemma cycleA_eval :
    runCycle exOpts ["0xaa"] (.ok 1) exBlocksA ⟨0, []⟩ =
      ⟨⟨1, ["h1"]⟩, [exRec], false, false⟩ := by
  have hpt := exTx_processTx [] (by simp)
  have hb : exBlocksA 1 = .block [exTx] := rfl
  have hrb : runBlocks exOpts ["0xaa"] exBlocksA [1] [] = (["h1"], [exRec], false) := by
    simp only [runBlocks, hb, processTxs_cons, processTxs_nil, hpt]
    rfl
  have hcr : cycleRange (0 : Nat) 1 = [1] := rfl
  simp only [runCycle]
  rw [if_neg (by decide : ¬ (1 : Nat) ≤ 0)]
  simp only [hcr, hrb]
  rfl

lemma cycleB_eval :
    runCycle exOpts ["0xaa"] (.ok 2) exBlocksB ⟨1, ["h1"]⟩ =
      ⟨⟨2, ["h1"]⟩, [], false, false⟩ := by decide

lemma exTrace_eval :
    runCycles exOpts ["0xaa"] [⟨.ok 1, exBlocksA⟩, ⟨.ok 2, exBlocksB⟩] ⟨0, []⟩ =
      (⟨2, ["h1"]⟩, [exRec], false) := by
  simp only [runCycles_cons, cycleA_eval, cycleB_eval, runCycles]
  rfl

/-- Witness for C6: in the concrete cycle the matched, unseen transaction
`exTx` is reported exactly once. -/
theorem C6_witness :
    (runCycle exOpts ["0xaa"] (.ok 1) exBlocksA ⟨0, []⟩).errored = false ∧
    (runCycle exOpts ["0xaa"] (.ok 1) exBlocksA ⟨0, []⟩).events.countP
      (fun r => r.hash == "h1") = 1 := by
  refine ⟨by rw [cycleA_eval], ?_⟩
  have h := C6_matched_unseen_tx_reported_once_in_order exOpts ["0xaa"] exBlocksA
    ⟨0, []⟩ 1 1 exTx "0xaa" (by decide) (by decide) rfl (by decide) (by simp)
    (by decide) (show roundToFloat64 0 = 0 from roundToFloat64_zero)
    (by show (0 : ℚ) ≤ ((0 : ℕ) : ℚ) / 10 ^ 18; norm_num)
    (by rw [cycleA_eval])
  exact h.1

/-- C7: over any sequence of polling cycles in which the dedup window is
never cleared (its size never exceeded the 1000-entry capacity at a
successful cycle's end), every transaction hash appears at most once in the
emitted records — a hash is reported to the notification sink at most once
over the session's lifetime except after a clear. -/
theorem C7_hash_reported_at_most_once_without_clear (o : MonitorOptions)
    (w : List String) (cs : List CycleInput) (st : SessionState)
    (h : (runCycles o w cs st).2.2 = false) :
    (((runCycles o w cs st).2.1).map Record.hash).Nodup :=
  runCycles_hashes_nodup o w cs st h

/-- Witness for C7: the same transaction hash presented in two successive
cycles (a provider re-report) while the window stays far below capacity
yields exactly one record, and the emitted hashes are duplicate-free. -/
theorem C7_witness :
    (runCycles exOpts ["0xaa"] [⟨.ok 1, exBlocksA⟩, ⟨.ok 2, exBlocksB⟩] ⟨0, []⟩).2.2
      = false ∧
    (((runCycles exOpts ["0xaa"] [⟨.ok 1, exBlocksA⟩, ⟨.ok 2, exBlocksB⟩]
        ⟨0, []⟩).2.1).map Record.hash).Nodup ∧
    (runCycles exOpts ["0xaa"] [⟨.ok 1, exBlocksA⟩, ⟨.ok 2, exBlocksB⟩]
        ⟨0, []⟩).2.1.length = 1 := by
  refine ⟨by rw [exTrace_eval], ?_, by rw [exTrace_eval]; rfl⟩
  exact C7_hash_reported_at_most_once_without_clear exOpts ["0xaa"]
    [⟨.ok 1, exBlocksA⟩, ⟨.ok 2, exBlocksB⟩] ⟨0, []⟩ (by rw [exTrace_eval])
